import Mathlib

/-!
Verification development for the `.dz` university e-mail scraper
(`scraper/scripts/scraper.py` plus its configuration `scraper/config.py`).

Python strings are modelled as `List Char` (one entry per code point; the
relevant data is ASCII).  Pure functions of the source are translated
one-to-one; I/O-only aspects (logging, sleeping, CSV writing) are elided, and
the two external collaborators that the specification declares as black boxes
(the HTTP client and the HTML structural parser) are abstracted as an outcome
oracle and a navigable page-tree structure respectively.
-/

set_option maxRecDepth 20000

abbrev Str := List Char

/-- Shorthand turning a Lean string literal into the `List Char` model. -/
def str (s : String) : Str := s.data

/-- ASCII lower-casing of one character (model of Python `str.lower` on the
ASCII range, which is all the scraper's data uses). -/
def toLowerCh (c : Char) : Char :=
  if 'A' ≤ c ∧ c ≤ 'Z' then Char.ofNat (c.toNat + 32) else c

/-- Python `s.lower()`. -/
def lowerAscii (l : Str) : Str := l.map toLowerCh

/-- Python `c in s` for a single character. -/
def containsChar (d : Char) (l : Str) : Bool := l.any (fun c => c = d)

/-- Python substring test `needle in haystack`. -/
def containsSubstr (needle : Str) : Str → Bool
  | [] => needle.isEmpty
  | c :: t => needle.isPrefixOf (c :: t) || containsSubstr needle t

/-- Python whitespace predicate (`str.strip` default set, ASCII part). -/
def pyIsSpace (c : Char) : Bool :=
  c = ' ' || c = '\t' || c = '\n' || c = '\r' || c = '\x0b' || c = '\x0c'

/-- Python `s.strip()`. -/
def pyStrip (l : Str) : Str :=
  ((l.dropWhile pyIsSpace).reverse.dropWhile pyIsSpace).reverse

/-- Python `s.isupper()` on the ASCII range: at least one cased character and
no lower-case cased character. -/
def pyIsUpper (l : Str) : Bool :=
  l.any Char.isAlpha && l.all (fun c => !c.isLower)

/-- Python `s.split(sep)` for a one-character separator (always returns at
least one piece; `"".split(sep) == [""]`). -/
def splitOnChar (sep : Char) : Str → List Str
  | [] => [[]]
  | c :: t =>
    let r := splitOnChar sep t
    if c = sep then [] :: r
    else
      match r with
      | [] => [[c]]
      | a :: rest => (c :: a) :: rest

/-- Split at the first occurrence of `d`: `some (before, after)` when `d`
occurs, `none` otherwise (`before` never contains `d`). -/
def splitFirst (d : Char) : Str → Option (Str × Str)
  | [] => none
  | c :: t =>
    if c = d then some ([], t)
    else
      match splitFirst d t with
      | none => none
      | some (a, b) => some (c :: a, b)

/-- Python string comparison `a < b` (lexicographic by code point). -/
def strLt : Str → Str → Bool
  | [], [] => false
  | [], _ :: _ => true
  | _ :: _, [] => false
  | a :: as, b :: bs => if a < b then true else if b < a then false else strLt as bs

/-! ## Identifier classifier (`is_institutional_email`, scraper.py lines 192-225)

The denylist and role-prefix data come from `scraper/config.py`
(`EXCLUDED_EMAIL_PATTERNS`) and the inline `admin_prefixes` list. -/

/-- `EXCLUDED_EMAIL_PATTERNS` from `scraper/config.py`, verbatim. -/
def EXCLUDED_EMAIL_PATTERNS : List Str :=
  [str "noreply", str "no-reply", str "donotreply",
   str "contact", str "info", str "support", str "help",
   str "webmaster", str "admin", str "administrator",
   str "postmaster", str "abuse", str "security",
   str "service", str "services", str "assistance",
   str "secretariat", str "secretary", str "secretaire",
   str "direction", str "directeur", str "director",
   str "rectorat", str "rector", str "recteur",
   str "communication", str "com", str "marketing",
   str "presse", str "media", str "relations",
   str "accueil", str "reception", str "welcome",
   str "inscription", str "admission", str "registration",
   str "biblio", str "bibliotheque", str "library",
   str "technique", str "technical", str "tech",
   str "system", str "systems", str "sysadmin",
   str "test", str "testing", str "demo",
   str "mail", str "email", str "courrier",
   str "generic", str "default", str "example",
   str "elearning", str "e-learning", str "elearn",
   str "authentification", str "auth", str "authentication",
   str "vrp", str "vrex", str "vr-relex", str "vr-",
   str "cei", str "ceil", str "lsp", str "laa",
   str "xxx.xxx"]

/-- The inline `admin_prefixes` list of `is_institutional_email`. -/
def adminPrefixes : List Str :=
  [str "vr.", str "doyen.", str "chef.", str "directeur.", str "director.",
   str "admin.", str "service."]

/-- `email.split('@')[0].lower()`: the lower-cased part before the first `@`. -/
def localPartOf (email : Str) : Str :=
  lowerAscii ((splitOnChar '@' email).headD [])

/-- Denylist stage: some excluded pattern occurs (case-insensitively) inside
the local part. -/
def matchesExcludedPattern (lp : Str) : Bool :=
  EXCLUDED_EMAIL_PATTERNS.any (fun p => containsSubstr (lowerAscii p) lp)

/-- Role-prefix stage: the local part starts with one of the admin prefixes. -/
def matchesAdminPrefixes (lp : Str) : Bool :=
  adminPrefixes.any (fun p => p.isPrefixOf lp)

/-- Abbreviation stage: length at most 4, no internal separator, and either
`isupper()` (dead after the entry lower-casing) or length at most 3. -/
def isAbbreviationLike (lp : Str) : Bool :=
  decide (lp.length ≤ 4) && !containsChar '.' lp && !containsChar '-' lp &&
  (pyIsUpper lp || decide (lp.length ≤ 3))

/-- `is_institutional_email` (scraper.py lines 192-225): `true` means the
identifier is institutional, i.e. rejected; acceptance is the negation. -/
def is_institutional_email (email : Str) : Bool :=
  if ¬ containsChar '@' email = true then false
  else
    let lp := localPartOf email
    if matchesExcludedPattern lp then true
    else if lp.length < 3 then true
    else if matchesAdminPrefixes lp then true
    else if isAbbreviationLike lp then true
    else false

/-! ## Claims C1, C7, C8: classifier behaviour -/

/-- C1: the classifier (accept = not institutional) decides the six literal
local-part cases as the spec states, for any domain part ending in `.dz`:
`a.yahiaoui` accepted; `info` and `noreply` rejected with the denylist
matching; `ab` rejected with local-part length below 3; `VR` rejected;
`vr.doyen` rejected with the role-prefix rule (and not via the denylist). -/
theorem C1_classifier_literal_cases (d : Str) (hd : (str ".dz").isSuffixOf d = true) :
    is_institutional_email (str "a.yahiaoui" ++ '@' :: d) = false
    ∧ is_institutional_email (str "info" ++ '@' :: d) = true
    ∧ matchesExcludedPattern (localPartOf (str "info" ++ '@' :: d)) = true
    ∧ is_institutional_email (str "noreply" ++ '@' :: d) = true
    ∧ matchesExcludedPattern (localPartOf (str "noreply" ++ '@' :: d)) = true
    ∧ is_institutional_email (str "ab" ++ '@' :: d) = true
    ∧ (localPartOf (str "ab" ++ '@' :: d)).length < 3
    ∧ is_institutional_email (str "VR" ++ '@' :: d) = true
    ∧ is_institutional_email (str "vr.doyen" ++ '@' :: d) = true
    ∧ matchesAdminPrefixes (localPartOf (str "vr.doyen" ++ '@' :: d)) = true
    ∧ matchesExcludedPattern (localPartOf (str "vr.doyen" ++ '@' :: d)) = false :=
  ⟨rfl, rfl, rfl, rfl, rfl, rfl, (by decide : (2 : Nat) < 3), rfl, rfl, rfl, rfl⟩

/-- Witness for C1 at the concrete domain part `univ-x.dz`. -/
theorem C1_witness :
    (str ".dz").isSuffixOf (str "univ-x.dz") = true
    ∧ (is_institutional_email (str "a.yahiaoui" ++ '@' :: str "univ-x.dz") = false
       ∧ is_institutional_email (str "info" ++ '@' :: str "univ-x.dz") = true
       ∧ matchesExcludedPattern (localPartOf (str "info" ++ '@' :: str "univ-x.dz")) = true
       ∧ is_institutional_email (str "noreply" ++ '@' :: str "univ-x.dz") = true
       ∧ matchesExcludedPattern (localPartOf (str "noreply" ++ '@' :: str "univ-x.dz")) = true
       ∧ is_institutional_email (str "ab" ++ '@' :: str "univ-x.dz") = true
       ∧ (localPartOf (str "ab" ++ '@' :: str "univ-x.dz")).length < 3
       ∧ is_institutional_email (str "VR" ++ '@' :: str "univ-x.dz") = true
       ∧ is_institutional_email (str "vr.doyen" ++ '@' :: str "univ-x.dz") = true
       ∧ matchesAdminPrefixes (localPartOf (str "vr.doyen" ++ '@' :: str "univ-x.dz")) = true
       ∧ matchesExcludedPattern (localPartOf (str "vr.doyen" ++ '@' :: str "univ-x.dz")) = false) :=
  ⟨by decide, C1_classifier_literal_cases (str "univ-x.dz") (by decide)⟩

/-- C7 counterexample: the claim says an input without `@` is rejected
(classified institutional), but the code returns `False` (accepted) on the
concrete input `bonjour`. -/
theorem C7_counterexample :
    containsChar '@' (str "bonjour") = false
    ∧ ¬ is_institutional_email (str "bonjour") = true := by
  exact ⟨rfl, by decide⟩

/-- C7 amended: for every input string without `@`, `is_institutional_email`
returns `false`, i.e. the defensive first check classifies such input as NOT
institutional (accepted), the opposite polarity of the spec's rejection rule. -/
theorem C7_amended_no_at_accepted (e : Str) (h : containsChar '@' e = false) :
    is_institutional_email e = false := by
  unfold is_institutional_email
  rw [h]
  simp

/-- Witness for C7 amended at the concrete input `bonjour`. -/
theorem C7_amended_witness :
    containsChar '@' (str "bonjour") = false
    ∧ is_institutional_email (str "bonjour") = false :=
  ⟨by decide, C7_amended_no_at_accepted (str "bonjour") (by decide)⟩

/-- C8: the spec's abbreviation heuristic says a fully upper-case local part
of length 4 with no separator (`ABCD`) is rejected, but the code lower-cases
the local part before testing `isupper()`, so that branch is unreachable and
`ABCD@univ-x.dz` is accepted (classified NOT institutional). -/
theorem C8_uppercase_abbreviation_dead_code :
    (str "ABCD").length = 4
    ∧ pyIsUpper (str "ABCD") = true
    ∧ containsChar '.' (str "ABCD") = false
    ∧ containsChar '-' (str "ABCD") = false
    ∧ is_institutional_email (str "ABCD" ++ '@' :: str "univ-x.dz") = false := by
  exact ⟨rfl, by decide, by decide, by decide, rfl⟩

/-! ## URL parsing model (Python `urllib.parse.urlparse`)

`normalize_url`, `fetch_html` and the link classifier are all built on
`urlparse`.  The model follows CPython's `urlsplit`/`urlparse`: optional
scheme (lower-cased, first character alphabetic, scheme characters only),
network location after `//` up to the first of `/ ? #`, fragment split at the
first `#`, query split at the first `?`, and the `urlparse`-only parameter
split at the first `;` of the last path segment. -/

/-- CPython `scheme_chars`. -/
def isSchemeChar (c : Char) : Bool :=
  c.isAlpha || c.isDigit || c = '+' || c = '-' || c = '.'

/-- Scheme detection of `urlsplit`: `(scheme, rest)`; `([], url)` when the
input has no well-formed scheme prefix. -/
def schemeSplit (url : Str) : Str × Str :=
  match splitFirst ':' url with
  | none => ([], url)
  | some (a, b) =>
    match a with
    | [] => ([], url)
    | c :: t =>
      if c.isAlpha ∧ (c :: t).all isSchemeChar then (lowerAscii (c :: t), b)
      else ([], url)

/-- Characters terminating the network-location part. -/
def isNetlocDelim (c : Char) : Bool := c = '/' || c = '?' || c = '#'

/-- Take up to the first `/`, `?` or `#` (CPython `_splitnetloc`). -/
def takeUntilDelim : Str → Str × Str
  | [] => ([], [])
  | c :: t =>
    if isNetlocDelim c then ([], c :: t)
    else
      let p := takeUntilDelim t
      (c :: p.1, p.2)

/-- Network-location split: only applies when the remainder starts with `//`. -/
def netlocSplit (l : Str) : Str × Str :=
  match l with
  | c1 :: c2 :: r => if c1 = '/' ∧ c2 = '/' then takeUntilDelim r else ([], l)
  | _ => ([], l)

/-- Fragment split at the first `#`. -/
def fragmentSplit (l : Str) : Str × Str :=
  match splitFirst '#' l with
  | some (a, b) => (a, b)
  | none => (l, [])

/-- Query split at the first `?`. -/
def querySplit (l : Str) : Str × Str :=
  match splitFirst '?' l with
  | some (a, b) => (a, b)
  | none => (l, [])

structure SplitResult where
  scheme : Str
  netloc : Str
  path : Str
  query : Str
  fragment : Str
deriving DecidableEq, Repr

/-- CPython `urlsplit` (sanitisation of control characters elided: URLs are
modelled as already free of ASCII control characters). -/
def urlsplit (url : Str) : SplitResult :=
  let sr := schemeSplit url
  let nr := netlocSplit sr.2
  let fr := fragmentSplit nr.2
  let qr := querySplit fr.1
  ⟨sr.1, nr.1, qr.1, qr.2, fr.2⟩

/-- CPython `_splitparams`: split the parameters at the first `;` occurring in
the last path segment (after the last `/`), or anywhere when the path has no
`/`. -/
def splitparams (path : Str) : Str × Str :=
  match splitFirst '/' path.reverse with
  | some (x, y) =>
    let seg := x.reverse
    match splitFirst ';' seg with
    | some (s1, s2) => (y.reverse ++ '/' :: s1, s2)
    | none => (path, [])
  | none =>
    match splitFirst ';' path with
    | some (s1, s2) => (s1, s2)
    | none => (path, [])

structure ParseResult where
  scheme : Str
  netloc : Str
  path : Str
  params : Str
  query : Str
  fragment : Str
deriving DecidableEq, Repr

/-- CPython `urlparse`. -/
def urlparse (url : Str) : ParseResult :=
  let s := urlsplit url
  let pp := splitparams s.path
  ⟨s.scheme, s.netloc, pp.1, pp.2, s.query, s.fragment⟩

/-- Python `path.rstrip('/')`. -/
def rstripSlash : Str → Str
  | [] => []
  | c :: t =>
    let r := rstripSlash t
    if r = [] then (if c = '/' then [] else [c])
    else c :: r

/-- `normalize_url` (scraper.py lines 621-640).  The `try/except` wrapper of
the source cannot fire in this total model and is elided. -/
def normalize_url (url : Str) : Str :=
  let p := urlparse url
  if p.netloc = [] then url
  else
    let scheme := if p.scheme = [] then str "https" else p.scheme
    let path := if rstripSlash p.path = [] then str "/" else rstripSlash p.path
    scheme ++ str "://" ++ p.netloc ++ path
      ++ (if p.query = [] then [] else '?' :: p.query)
      ++ (if p.fragment = [] then [] else '#' :: p.fragment)

/-- Modelled from the spec's four normalization steps, for comparison with
`normalize_url`: default missing scheme to https, LOWER-CASE THE HOST, strip a
trailing slash from the path except for the root, preserve query and fragment
verbatim. -/
def specNormalize (url : Str) : Str :=
  let p := urlparse url
  let scheme := if p.scheme = [] then str "https" else p.scheme
  let path := if rstripSlash p.path = [] then str "/" else rstripSlash p.path
  scheme ++ str "://" ++ lowerAscii p.netloc ++ path
    ++ (if p.query = [] then [] else '?' :: p.query)
    ++ (if p.fragment = [] then [] else '#' :: p.fragment)

/-- The amended normalization contract: as `specNormalize` but with the host
preserved verbatim (the code never lower-cases the network location). -/
def specNormalizeAmended (url : Str) : Str :=
  let p := urlparse url
  let scheme := if p.scheme = [] then str "https" else p.scheme
  let path := if rstripSlash p.path = [] then str "/" else rstripSlash p.path
  scheme ++ str "://" ++ p.netloc ++ path
    ++ (if p.query = [] then [] else '?' :: p.query)
    ++ (if p.fragment = [] then [] else '#' :: p.fragment)

/-! ## Claim C3: the four normalization steps -/

/-- C3 counterexample: on `https://UNIV-X.dz/p` (non-empty host) the code does
not lower-case the host, so `normalize_url` differs from the spec's
four-step contract `specNormalize`. -/
theorem C3_counterexample :
    (urlparse (str "https://UNIV-X.dz/p")).netloc ≠ []
    ∧ normalize_url (str "https://UNIV-X.dz/p") ≠ specNormalize (str "https://UNIV-X.dz/p") := by
  exact ⟨by decide, by decide⟩

/-- C3 amended: for every URL with a non-empty host, `normalize_url` performs
the spec's steps with the host preserved verbatim instead of lower-cased:
missing scheme defaults to https, trailing slash stripped from the path except
for the root, query and fragment preserved verbatim. -/
theorem C3_amended_normalize_steps (u : Str) (h : (urlparse u).netloc ≠ []) :
    normalize_url u = specNormalizeAmended u := by
  unfold normalize_url specNormalizeAmended
  rw [if_neg h]

/-- Witness for C3 amended at `https://UNIV-X.dz/p`. -/
theorem C3_witness :
    (urlparse (str "https://UNIV-X.dz/p")).netloc ≠ []
    ∧ normalize_url (str "https://UNIV-X.dz/p") = specNormalizeAmended (str "https://UNIV-X.dz/p") :=
  ⟨by decide, C3_amended_normalize_steps (str "https://UNIV-X.dz/p") (by decide)⟩

/-- C9 counterexample: `normalize_url` is not idempotent.  On
`https://x/a;b/` the first pass strips the trailing slash producing
`https://x/a;b`, whose re-parse splits `;b` off as URL parameters, so a second
pass yields `https://x/a`. -/
theorem C9_counterexample :
    normalize_url (normalize_url (str "https://x/a;b/")) ≠ normalize_url (str "https://x/a;b/") := by
  decide

/-! ## Character and list lemmas -/

theorem char_toNat_ofNat (n : Nat) (h : n < 55296) : (Char.ofNat n).toNat = n := by
  unfold Char.ofNat
  rw [dif_pos (Or.inl h)]
  unfold Char.ofNatAux
  simp [Char.toNat, UInt32.toNat, BitVec.toNat_ofNat]

theorem upper_range_iff (c : Char) : ('A' ≤ c ∧ c ≤ 'Z') ↔ 65 ≤ c.toNat ∧ c.toNat ≤ 90 := by
  constructor
  · intro ⟨h1, h2⟩; exact ⟨h1, h2⟩
  · intro ⟨h1, h2⟩; exact ⟨h1, h2⟩

theorem isLower_iff (c : Char) : c.isLower = true ↔ 97 ≤ c.toNat ∧ c.toNat ≤ 122 := by
  simp only [Char.isLower, ge_iff_le, Bool.and_eq_true, decide_eq_true_eq]
  constructor
  · intro ⟨h1, h2⟩; exact ⟨h1, h2⟩
  · intro ⟨h1, h2⟩; exact ⟨h1, h2⟩

theorem toLowerCh_toNat_of_upper (c : Char) (h : 65 ≤ c.toNat ∧ c.toNat ≤ 90) :
    (toLowerCh c).toNat = c.toNat + 32 := by
  unfold toLowerCh
  rw [if_pos ((upper_range_iff c).2 h)]
  exact char_toNat_ofNat _ (by omega)

theorem toLowerCh_of_not_upper (c : Char) (h : ¬ (65 ≤ c.toNat ∧ c.toNat ≤ 90)) :
    toLowerCh c = c := by
  unfold toLowerCh
  rw [if_neg (fun hc => h ((upper_range_iff c).1 hc))]

theorem toLowerCh_idem (c : Char) : toLowerCh (toLowerCh c) = toLowerCh c := by
  by_cases h : 65 ≤ c.toNat ∧ c.toNat ≤ 90
  · have h2 := toLowerCh_toNat_of_upper c h
    exact toLowerCh_of_not_upper _ (by omega)
  · rw [toLowerCh_of_not_upper c h, toLowerCh_of_not_upper c h]

theorem isAlpha_toLowerCh (c : Char) (h : c.isAlpha = true) : (toLowerCh c).isAlpha = true := by
  by_cases hu : 65 ≤ c.toNat ∧ c.toNat ≤ 90
  · have h2 := toLowerCh_toNat_of_upper c hu
    simp only [Char.isAlpha, Bool.or_eq_true]
    right
    rw [isLower_iff]
    omega
  · rw [toLowerCh_of_not_upper c hu]; exact h

theorem isSchemeChar_toLowerCh (c : Char) (h : isSchemeChar c = true) :
    isSchemeChar (toLowerCh c) = true := by
  by_cases hu : 65 ≤ c.toNat ∧ c.toNat ≤ 90
  · have h2 := toLowerCh_toNat_of_upper c hu
    simp only [isSchemeChar, Bool.or_eq_true]
    left; left; left; left
    simp only [Char.isAlpha, Bool.or_eq_true]
    right
    rw [isLower_iff]
    omega
  · rw [toLowerCh_of_not_upper c hu]; exact h

theorem lowerAscii_idem (l : Str) : lowerAscii (lowerAscii l) = lowerAscii l := by
  simp [lowerAscii, List.map_map, Function.comp_def, toLowerCh_idem]


theorem splitFirst_cons (d c : Char) (t : Str) :
    splitFirst d (c :: t) =
      if c = d then some ([], t)
      else
        match splitFirst d t with
        | none => none
        | some (a, b) => some (c :: a, b) := rfl

theorem splitFirst_of_notMem {d : Char} : ∀ {l : Str}, d ∉ l → splitFirst d l = none
  | [], _ => rfl
  | c :: t, h => by
    have hc : ¬ c = d := fun hcd => h (hcd ▸ List.mem_cons_self c t)
    have ht : d ∉ t := fun hm => h (List.mem_cons_of_mem c hm)
    rw [splitFirst_cons, if_neg hc, splitFirst_of_notMem ht]

theorem splitFirst_some {d : Char} :
    ∀ {l a b : Str}, splitFirst d l = some (a, b) → l = a ++ d :: b ∧ d ∉ a := by
  intro l
  induction l with
  | nil => intro a b h; exact Option.noConfusion h
  | cons c t ih =>
    intro a b h
    rw [splitFirst_cons] at h
    by_cases hc : c = d
    · rw [if_pos hc] at h
      have h2 : (([] : Str), t) = (a, b) := Option.some.inj h
      injection h2 with ha hb
      subst ha
      subst hb
      exact ⟨by rw [hc]; rfl, by simp⟩
    · rw [if_neg hc] at h
      cases hs : splitFirst d t with
      | none => rw [hs] at h; exact Option.noConfusion h
      | some p =>
        obtain ⟨a0, b0⟩ := p
        rw [hs] at h
        have h2 : (c :: a0, b0) = (a, b) := Option.some.inj h
        injection h2 with ha hb
        subst ha
        subst hb
        obtain ⟨ht, hna⟩ := ih hs
        refine ⟨by simp [ht], ?_⟩
        intro hm
        rcases List.mem_cons.1 hm with h3 | h3
        · exact hc h3.symm
        · exact hna h3

theorem splitFirst_append {d : Char} :
    ∀ {a : Str} (b : Str), d ∉ a → splitFirst d (a ++ d :: b) = some (a, b)
  | [], b, _ => by simp [splitFirst_cons]
  | c :: t, b, h => by
    have hc : ¬ c = d := fun hcd => h (hcd ▸ List.mem_cons_self c t)
    have ht : d ∉ t := fun hm => h (List.mem_cons_of_mem c hm)
    rw [List.cons_append, splitFirst_cons, if_neg hc, splitFirst_append b ht]

theorem takeUntilDelim_cons (c : Char) (t : Str) :
    takeUntilDelim (c :: t) =
      if isNetlocDelim c then ([], c :: t)
      else (c :: (takeUntilDelim t).1, (takeUntilDelim t).2) := rfl

theorem takeUntilDelim_fst_no_delim :
    ∀ (l : Str), ∀ c ∈ (takeUntilDelim l).1, isNetlocDelim c = false
  | [], c, h => by exact absurd h (by simp [takeUntilDelim])
  | c0 :: t, c, h => by
    rw [takeUntilDelim_cons] at h
    by_cases hd : isNetlocDelim c0
    · rw [if_pos hd] at h; exact absurd h (by simp)
    · rw [if_neg hd] at h
      simp only [List.mem_cons] at h
      rcases h with rfl | h
      · exact Bool.of_not_eq_true hd
      · exact takeUntilDelim_fst_no_delim t c h

theorem takeUntilDelim_append :
    ∀ {a : Str} (b : Str), (∀ c ∈ a, isNetlocDelim c = false) →
      (b = [] ∨ ∃ c t, b = c :: t ∧ isNetlocDelim c = true) →
      takeUntilDelim (a ++ b) = (a, b)
  | [], b, _, hb => by
    rcases hb with rfl | ⟨c, t, rfl, hc⟩
    · rfl
    · rw [List.nil_append, takeUntilDelim_cons, if_pos hc]
  | c0 :: t0, b, ha, hb => by
    have hc0 : isNetlocDelim c0 = false := ha c0 (List.mem_cons_self c0 t0)
    have ih := takeUntilDelim_append (a := t0) b
      (fun c hc => ha c (List.mem_cons_of_mem c0 hc)) hb
    rw [List.cons_append, takeUntilDelim_cons, if_neg (by simp [hc0]), ih]

theorem takeUntilDelim_eq_append :
    ∀ (l : Str), (takeUntilDelim l).1 ++ (takeUntilDelim l).2 = l
  | [] => rfl
  | c :: t => by
    rw [takeUntilDelim_cons]
    by_cases hd : isNetlocDelim c
    · rw [if_pos hd]; rfl
    · rw [if_neg hd]
      simp [takeUntilDelim_eq_append t]

theorem takeUntilDelim_snd_shape :
    ∀ (l : Str), (takeUntilDelim l).2 = [] ∨
      ∃ c t, (takeUntilDelim l).2 = c :: t ∧ isNetlocDelim c = true
  | [] => Or.inl rfl
  | c :: t => by
    rw [takeUntilDelim_cons]
    by_cases hd : isNetlocDelim c
    · rw [if_pos hd]
      exact Or.inr ⟨c, t, rfl, hd⟩
    · rw [if_neg hd]
      simpa using takeUntilDelim_snd_shape t

theorem rstripSlash_cons (c : Char) (t : Str) :
    rstripSlash (c :: t) =
      if rstripSlash t = [] then (if c = '/' then [] else [c])
      else c :: rstripSlash t := rfl

theorem rstripSlash_idem : ∀ (l : Str), rstripSlash (rstripSlash l) = rstripSlash l
  | [] => rfl
  | c :: t => by
    rw [rstripSlash_cons]
    by_cases hr : rstripSlash t = []
    · rw [if_pos hr]
      by_cases hc : c = '/'
      · rw [if_pos hc]; rfl
      · rw [if_neg hc, rstripSlash_cons]
        simp [rstripSlash, hc]
    · rw [if_neg hr, rstripSlash_cons, rstripSlash_idem t, if_neg hr]

theorem mem_rstripSlash : ∀ {l : Str} {c : Char}, c ∈ rstripSlash l → c ∈ l := by
  intro l
  induction l with
  | nil => intro c h; exact absurd h (by simp [rstripSlash])
  | cons c0 t ih =>
    intro c h
    rw [rstripSlash_cons] at h
    by_cases hr : rstripSlash t = []
    · rw [if_pos hr] at h
      by_cases hc : c0 = '/'
      · rw [if_pos hc] at h; exact absurd h (by simp)
      · rw [if_neg hc] at h
        simp only [List.mem_singleton] at h
        exact h ▸ List.mem_cons_self c0 t
    · rw [if_neg hr] at h
      rcases List.mem_cons.1 h with rfl | h2
      · exact List.mem_cons_self c t
      · exact List.mem_cons_of_mem c0 (ih h2)

theorem rstripSlash_head (c : Char) (t : Str) :
    rstripSlash (c :: t) = [] ∨ ∃ r, rstripSlash (c :: t) = c :: r := by
  rw [rstripSlash_cons]
  by_cases hr : rstripSlash t = []
  · rw [if_pos hr]
    by_cases hc : c = '/'
    · rw [if_pos hc]; exact Or.inl rfl
    · rw [if_neg hc]; exact Or.inr ⟨[], rfl⟩
  · rw [if_neg hr]
    exact Or.inr ⟨rstripSlash t, rfl⟩

theorem notMem_of_splitFirst_none {d : Char} :
    ∀ {l : Str}, splitFirst d l = none → d ∉ l := by
  intro l
  induction l with
  | nil => intro _ hm; exact absurd hm (by simp)
  | cons c t ih =>
    intro h hm
    rw [splitFirst_cons] at h
    by_cases hc : c = d
    · rw [if_pos hc] at h; exact Option.noConfusion h
    · rw [if_neg hc] at h
      cases hs : splitFirst d t with
      | none =>
        rcases List.mem_cons.1 hm with h2 | h2
        · exact hc h2.symm
        · exact ih hs h2
      | some p => obtain ⟨a, b⟩ := p; rw [hs] at h; exact Option.noConfusion h

theorem schemeSplit_eq_none {u : Str} (h : splitFirst ':' u = none) :
    schemeSplit u = ([], u) := by
  unfold schemeSplit; rw [h]

theorem schemeSplit_eq_some_nil {u b : Str} (h : splitFirst ':' u = some ([], b)) :
    schemeSplit u = ([], u) := by
  unfold schemeSplit; rw [h]

theorem schemeSplit_eq_some_cons {u b : Str} {c : Char} {t : Str}
    (h : splitFirst ':' u = some (c :: t, b)) :
    schemeSplit u =
      if c.isAlpha ∧ (c :: t).all isSchemeChar then (lowerAscii (c :: t), b)
      else ([], u) := by
  unfold schemeSplit; rw [h]

theorem schemeSplit_props (u : Str) :
    (schemeSplit u).1 = [] ∨
      ((schemeSplit u).1 ≠ [] ∧ (∀ c ∈ (schemeSplit u).1, isSchemeChar c = true) ∧
       ((schemeSplit u).1.headD 'x').isAlpha = true ∧
       lowerAscii (schemeSplit u).1 = (schemeSplit u).1) := by
  cases hs : splitFirst ':' u with
  | none => rw [schemeSplit_eq_none hs]; exact Or.inl rfl
  | some p =>
    obtain ⟨a, b⟩ := p
    cases a with
    | nil => rw [schemeSplit_eq_some_nil hs]; exact Or.inl rfl
    | cons c t =>
      rw [schemeSplit_eq_some_cons hs]
      by_cases hcond : c.isAlpha ∧ (c :: t).all isSchemeChar
      · rw [if_pos hcond]
        refine Or.inr ⟨by simp [lowerAscii], ?_, ?_, lowerAscii_idem (c :: t)⟩
        · intro x hx
          simp only [lowerAscii, List.mem_map] at hx
          obtain ⟨y, hy, rfl⟩ := hx
          exact isSchemeChar_toLowerCh y (List.all_eq_true.1 hcond.2 y hy)
        · show (toLowerCh c).isAlpha = true
          exact isAlpha_toLowerCh c hcond.1
      · rw [if_neg hcond]; exact Or.inl rfl

theorem schemeSplit_reconstruct (s rest : Str) (hne : s ≠ [])
    (hhead : (s.headD 'x').isAlpha = true)
    (hall : ∀ c ∈ s, isSchemeChar c = true) (hlow : lowerAscii s = s) :
    schemeSplit (s ++ ':' :: rest) = (s, rest) := by
  have hcolon : ':' ∉ s := by
    intro hm
    have h2 := hall ':' hm
    exact absurd h2 (by decide)
  cases s with
  | nil => exact absurd rfl hne
  | cons c t =>
    rw [schemeSplit_eq_some_cons (splitFirst_append rest hcolon)]
    have hc : c.isAlpha = true := by simpa using hhead
    have hallb : (c :: t).all isSchemeChar = true :=
      List.all_eq_true.2 (fun x hx => hall x hx)
    rw [if_pos ⟨hc, hallb⟩, hlow]

theorem netlocSplit_slashes (r : Str) : netlocSplit ('/' :: '/' :: r) = takeUntilDelim r := by
  simp [netlocSplit]

theorem netlocSplit_props (l : Str) :
    ((netlocSplit l).1 = [] ∧ (netlocSplit l).2 = l) ∨
      (∃ r, l = '/' :: '/' :: r ∧ netlocSplit l = takeUntilDelim r) := by
  match l with
  | [] => exact Or.inl ⟨rfl, rfl⟩
  | [c1] => exact Or.inl ⟨rfl, rfl⟩
  | c1 :: c2 :: r =>
    by_cases h : c1 = '/' ∧ c2 = '/'
    · refine Or.inr ⟨r, ?_, ?_⟩
      · rw [h.1, h.2]
      · simp [netlocSplit, h]
    · left
      constructor <;> simp [netlocSplit, h]

theorem fragmentSplit_of_notMem {l : Str} (h : '#' ∉ l) : fragmentSplit l = (l, []) := by
  unfold fragmentSplit; rw [splitFirst_of_notMem h]

theorem fragmentSplit_append {a : Str} (b : Str) (h : '#' ∉ a) :
    fragmentSplit (a ++ '#' :: b) = (a, b) := by
  unfold fragmentSplit; rw [splitFirst_append b h]

theorem querySplit_of_notMem {l : Str} (h : '?' ∉ l) : querySplit l = (l, []) := by
  unfold querySplit; rw [splitFirst_of_notMem h]

theorem querySplit_append {a : Str} (b : Str) (h : '?' ∉ a) :
    querySplit (a ++ '?' :: b) = (a, b) := by
  unfold querySplit; rw [splitFirst_append b h]

theorem urlsplit_eq (u : Str) :
    urlsplit u = ⟨(schemeSplit u).1, (netlocSplit (schemeSplit u).2).1,
      (querySplit (fragmentSplit (netlocSplit (schemeSplit u).2).2).1).1,
      (querySplit (fragmentSplit (netlocSplit (schemeSplit u).2).2).1).2,
      (fragmentSplit (netlocSplit (schemeSplit u).2).2).2⟩ := rfl

theorem fragmentSplit_props (l : Str) :
    '#' ∉ (fragmentSplit l).1 ∧ ∃ sfx, l = (fragmentSplit l).1 ++ sfx := by
  cases hs : splitFirst '#' l with
  | none =>
    have he : fragmentSplit l = (l, []) := by unfold fragmentSplit; rw [hs]
    rw [he]
    exact ⟨notMem_of_splitFirst_none hs, [], by simp⟩
  | some p =>
    obtain ⟨a, b⟩ := p
    have he : fragmentSplit l = (a, b) := by unfold fragmentSplit; rw [hs]
    rw [he]
    obtain ⟨heq, hna⟩ := splitFirst_some hs
    exact ⟨hna, '#' :: b, heq⟩

theorem querySplit_props (l : Str) :
    '?' ∉ (querySplit l).1 ∧ (∃ sfx, l = (querySplit l).1 ++ sfx)
    ∧ (∀ c ∈ (querySplit l).2, c ∈ l) := by
  cases hs : splitFirst '?' l with
  | none =>
    have he : querySplit l = (l, []) := by unfold querySplit; rw [hs]
    rw [he]
    exact ⟨notMem_of_splitFirst_none hs, ⟨[], by simp⟩, by simp⟩
  | some p =>
    obtain ⟨a, b⟩ := p
    have he : querySplit l = (a, b) := by unfold querySplit; rw [hs]
    rw [he]
    obtain ⟨heq, hna⟩ := splitFirst_some hs
    refine ⟨hna, ⟨'?' :: b, heq⟩, ?_⟩
    intro c hc
    rw [heq]
    exact List.mem_append_right a (List.mem_cons_of_mem '?' hc)

theorem isNetlocDelim_cases {c : Char} (h : isNetlocDelim c = true) :
    c = '/' ∨ c = '?' ∨ c = '#' := by
  simpa [isNetlocDelim, or_assoc] using h

theorem urlsplit_props (u : Str) :
    (∀ c ∈ (urlsplit u).netloc, isNetlocDelim c = false)
    ∧ '#' ∉ (urlsplit u).path ∧ '?' ∉ (urlsplit u).path ∧ '#' ∉ (urlsplit u).query
    ∧ ((urlsplit u).netloc ≠ [] →
        (urlsplit u).path = [] ∨ ∃ r, (urlsplit u).path = '/' :: r) := by
  rw [urlsplit_eq]
  dsimp only
  obtain ⟨hfr1, sfx1, hfr2⟩ := fragmentSplit_props (netlocSplit (schemeSplit u).2).2
  obtain ⟨hqr1, ⟨sfx2, hqr2⟩, hqrm⟩ :=
    querySplit_props (fragmentSplit (netlocSplit (schemeSplit u).2).2).1
  have hpath_hash : '#' ∉ (querySplit (fragmentSplit (netlocSplit (schemeSplit u).2).2).1).1 := by
    intro hm
    exact hfr1 (hqr2 ▸ List.mem_append_left sfx2 hm)
  have hquery_hash : '#' ∉ (querySplit (fragmentSplit (netlocSplit (schemeSplit u).2).2).1).2 := by
    intro hm
    exact hfr1 (hqrm '#' hm)
  refine ⟨?_, hpath_hash, hqr1, hquery_hash, ?_⟩
  · intro c hc
    rcases netlocSplit_props (schemeSplit u).2 with ⟨h1, _⟩ | ⟨r, _, heq⟩
    · rw [h1] at hc; exact absurd hc (by simp)
    · rw [heq] at hc
      exact takeUntilDelim_fst_no_delim r c hc
  · intro hne
    rcases netlocSplit_props (schemeSplit u).2 with ⟨h1, _⟩ | ⟨r, _, heq⟩
    · exact absurd h1 hne
    · -- the remainder after the netloc is empty or starts with a delimiter
      have hl2 : (netlocSplit (schemeSplit u).2).2 = (takeUntilDelim r).2 := by rw [heq]
      cases hpath : (querySplit (fragmentSplit (netlocSplit (schemeSplit u).2).2).1).1 with
      | nil => exact Or.inl rfl
      | cons pc pt =>
        right
        have hl2eq : (netlocSplit (schemeSplit u).2).2 = pc :: (pt ++ (sfx2 ++ sfx1)) := by
          rw [hfr2, hqr2, hpath]
          simp
        rcases takeUntilDelim_snd_shape r with hsh | ⟨c0, t0, hsh, hdel⟩
        · rw [hl2, hsh] at hl2eq; exact absurd hl2eq (by simp)
        · rw [hl2, hsh] at hl2eq
          have hpc : pc = c0 := (List.cons.injEq _ _ _ _ ▸ hl2eq).1.symm
          subst hpc
          rcases isNetlocDelim_cases hdel with h0 | h0 | h0
          · exact ⟨pt, by rw [h0]⟩
          · exfalso; apply hqr1; rw [hpath, h0]; exact List.mem_cons_self _ _
          · exfalso; apply hpath_hash; rw [hpath, h0]; exact List.mem_cons_self _ _

theorem splitparams_of_notMem {p : Str} (h : ';' ∉ p) : splitparams p = (p, []) := by
  cases hs : splitFirst '/' p.reverse with
  | none =>
    have he : splitparams p =
        match splitFirst ';' p with
        | some (s1, s2) => (s1, s2)
        | none => (p, []) := by
      unfold splitparams; rw [hs]
    rw [he, splitFirst_of_notMem h]
  | some pr =>
    obtain ⟨x, y⟩ := pr
    have he : splitparams p =
        match splitFirst ';' x.reverse with
        | some (s1, s2) => (y.reverse ++ '/' :: s1, s2)
        | none => (p, []) := by
      unfold splitparams; rw [hs]
    have hxr : ';' ∉ x.reverse := by
      intro hm
      obtain ⟨heq, _⟩ := splitFirst_some hs
      have : ';' ∈ p.reverse := heq ▸ List.mem_append_left _ (List.mem_reverse.1 hm)
      exact h (List.mem_reverse.1 this)
    rw [he, splitFirst_of_notMem hxr]

theorem splitparams_fst_prefix (p : Str) : ∃ sfx, p = (splitparams p).1 ++ sfx := by
  cases hs : splitFirst '/' p.reverse with
  | none =>
    have he0 : splitparams p =
        match splitFirst ';' p with
        | some (s1, s2) => (s1, s2)
        | none => (p, []) := by
      unfold splitparams; rw [hs]
    cases hs2 : splitFirst ';' p with
    | none =>
      have he : splitparams p = (p, []) := by rw [he0, hs2]
      exact ⟨[], by rw [he]; simp⟩
    | some pr =>
      obtain ⟨s1, s2⟩ := pr
      have he : splitparams p = (s1, s2) := by rw [he0, hs2]
      obtain ⟨heq, _⟩ := splitFirst_some hs2
      exact ⟨';' :: s2, by rw [he, heq]⟩
  | some pr =>
    obtain ⟨x, y⟩ := pr
    have he0 : splitparams p =
        match splitFirst ';' x.reverse with
        | some (s1, s2) => (y.reverse ++ '/' :: s1, s2)
        | none => (p, []) := by
      unfold splitparams; rw [hs]
    cases hs2 : splitFirst ';' x.reverse with
    | none =>
      have he : splitparams p = (p, []) := by rw [he0, hs2]
      exact ⟨[], by rw [he]; simp⟩
    | some pr2 =>
      obtain ⟨s1, s2⟩ := pr2
      have he : splitparams p = (y.reverse ++ '/' :: s1, s2) := by
        rw [he0, hs2]
      obtain ⟨heq, _⟩ := splitFirst_some hs
      obtain ⟨heq2, _⟩ := splitFirst_some hs2
      refine ⟨';' :: s2, ?_⟩
      rw [he]
      have hp : p = y.reverse ++ '/' :: x.reverse := by
        have := congrArg List.reverse heq
        simpa using this
      rw [hp, heq2]
      simp

theorem urlparse_eq (u : Str) :
    urlparse u = ⟨(urlsplit u).scheme, (urlsplit u).netloc,
      (splitparams (urlsplit u).path).1, (splitparams (urlsplit u).path).2,
      (urlsplit u).query, (urlsplit u).fragment⟩ := rfl


theorem urlsplit_reconstruct (s nl : Str) (pr q f : Str)
    (hs1 : s ≠ []) (hs2 : (s.headD 'x').isAlpha = true)
    (hs3 : ∀ c ∈ s, isSchemeChar c = true) (hs4 : lowerAscii s = s)
    (hnl : ∀ c ∈ nl, isNetlocDelim c = false)
    (hp3 : '#' ∉ ('/' :: pr)) (hp4 : '?' ∉ ('/' :: pr))
    (hq : '#' ∉ q) :
    urlsplit (s ++ str "://" ++ nl ++ ('/' :: pr)
        ++ (if q = [] then [] else '?' :: q)
        ++ (if f = [] then [] else '#' :: f))
      = ⟨s, nl, '/' :: pr, q, f⟩ := by
  have hnohash : '#' ∉ ('/' :: pr) ++ (if q = [] then [] else '?' :: q) := by
    intro hm
    rcases List.mem_append.1 hm with hm | hm
    · exact hp3 hm
    · by_cases hqe : q = []
      · rw [if_pos hqe] at hm; exact absurd hm (by simp)
      · rw [if_neg hqe] at hm
        rcases List.mem_cons.1 hm with hm | hm
        · exact absurd hm (by decide)
        · exact hq hm
  have harr : s ++ str "://" ++ nl ++ ('/' :: pr)
        ++ (if q = [] then [] else '?' :: q)
        ++ (if f = [] then [] else '#' :: f)
      = s ++ ':' :: '/' :: '/' ::
          (nl ++ (('/' :: pr) ++ ((if q = [] then [] else '?' :: q)
            ++ (if f = [] then [] else '#' :: f)))) := by
    simp only [List.append_assoc]
    rfl
  rw [harr, urlsplit_eq, schemeSplit_reconstruct s _ hs1 hs2 hs3 hs4]
  dsimp only
  rw [netlocSplit_slashes]
  have hTU : takeUntilDelim (nl ++ (('/' :: pr) ++ ((if q = [] then [] else '?' :: q)
        ++ (if f = [] then [] else '#' :: f))))
      = (nl, ('/' :: pr) ++ ((if q = [] then [] else '?' :: q)
          ++ (if f = [] then [] else '#' :: f))) :=
    takeUntilDelim_append _ hnl
      (Or.inr ⟨'/', pr ++ ((if q = [] then [] else '?' :: q)
          ++ (if f = [] then [] else '#' :: f)), List.cons_append _ _ _, by decide⟩)
  rw [hTU]
  dsimp only
  have hfr : fragmentSplit (('/' :: pr) ++ ((if q = [] then [] else '?' :: q)
        ++ (if f = [] then [] else '#' :: f)))
      = (('/' :: pr) ++ (if q = [] then [] else '?' :: q), f) := by
    by_cases hf : f = []
    · rw [if_pos hf, List.append_nil, fragmentSplit_of_notMem hnohash, hf]
    · rw [if_neg hf, ← List.append_assoc]
      exact fragmentSplit_append f hnohash
  rw [hfr]
  dsimp only
  have hqr : querySplit (('/' :: pr) ++ (if q = [] then [] else '?' :: q))
      = ('/' :: pr, q) := by
    by_cases hqe : q = []
    · rw [if_pos hqe, List.append_nil, querySplit_of_notMem hp4, hqe]
    · rw [if_neg hqe]
      exact querySplit_append q hp4
  rw [hqr]

theorem urlparse_reconstruct (s nl pr q f : Str)
    (hs1 : s ≠ []) (hs2 : (s.headD 'x').isAlpha = true)
    (hs3 : ∀ c ∈ s, isSchemeChar c = true) (hs4 : lowerAscii s = s)
    (hnl : ∀ c ∈ nl, isNetlocDelim c = false)
    (hp3 : '#' ∉ ('/' :: pr)) (hp4 : '?' ∉ ('/' :: pr)) (hp5 : ';' ∉ ('/' :: pr))
    (hq : '#' ∉ q) :
    urlparse (s ++ str "://" ++ nl ++ ('/' :: pr)
        ++ (if q = [] then [] else '?' :: q)
        ++ (if f = [] then [] else '#' :: f))
      = ⟨s, nl, '/' :: pr, [], q, f⟩ := by
  rw [urlparse_eq, urlsplit_reconstruct s nl pr q f hs1 hs2 hs3 hs4 hnl hp3 hp4 hq]
  dsimp only
  rw [splitparams_of_notMem hp5]

theorem normalize_url_eq (u : Str) (hn : ¬ (urlparse u).netloc = []) :
    normalize_url u =
      (if (urlparse u).scheme = [] then str "https" else (urlparse u).scheme)
      ++ str "://" ++ (urlparse u).netloc
      ++ (if rstripSlash (urlparse u).path = [] then str "/" else rstripSlash (urlparse u).path)
      ++ (if (urlparse u).query = [] then [] else '?' :: (urlparse u).query)
      ++ (if (urlparse u).fragment = [] then [] else '#' :: (urlparse u).fragment) := by
  unfold normalize_url
  rw [if_neg hn]

theorem normalize_url_fixpoint (s nl pr q f : Str)
    (hs1 : s ≠ []) (hs2 : (s.headD 'x').isAlpha = true)
    (hs3 : ∀ c ∈ s, isSchemeChar c = true) (hs4 : lowerAscii s = s)
    (hnl : ∀ c ∈ nl, isNetlocDelim c = false) (hnl2 : nl ≠ [])
    (hp3 : '#' ∉ ('/' :: pr)) (hp4 : '?' ∉ ('/' :: pr)) (hp5 : ';' ∉ ('/' :: pr))
    (hq : '#' ∉ q)
    (hfix : (if rstripSlash ('/' :: pr) = [] then str "/" else rstripSlash ('/' :: pr)) = '/' :: pr) :
    normalize_url (s ++ str "://" ++ nl ++ ('/' :: pr)
        ++ (if q = [] then [] else '?' :: q)
        ++ (if f = [] then [] else '#' :: f))
      = s ++ str "://" ++ nl ++ ('/' :: pr)
        ++ (if q = [] then [] else '?' :: q)
        ++ (if f = [] then [] else '#' :: f) := by
  have hparse := urlparse_reconstruct s nl pr q f hs1 hs2 hs3 hs4 hnl hp3 hp4 hp5 hq
  rw [normalize_url_eq _ (by rw [hparse]; exact hnl2)]
  rw [hparse]
  dsimp only
  rw [if_neg hs1, hfix]

/-- C9 amended: `normalize_url` is idempotent on every URL whose parsed path
contains no `;` (the parameter-splitting of `urlparse` interacting with
trailing-slash stripping is the only source of non-idempotence). -/
theorem C9_amended_idempotent (u : Str) (h : ';' ∉ (urlparse u).path) :
    normalize_url (normalize_url u) = normalize_url u := by
  by_cases hn : (urlparse u).netloc = []
  · have he : normalize_url u = u := by unfold normalize_url; rw [if_pos hn]
    rw [he]
    exact he
  · -- facts about the parsed components of u
    have hid : (urlparse u).path = (splitparams (urlsplit u).path).1 := rfl
    have hnn : (urlparse u).netloc = (urlsplit u).netloc := rfl
    have hqq : (urlparse u).query = (urlsplit u).query := rfl
    have hss : (urlparse u).scheme = (schemeSplit u).1 := rfl
    obtain ⟨hDnl, hphash, hpquest, hqhash, hpshape⟩ := urlsplit_props u
    obtain ⟨sfx, hpre⟩ := splitparams_fst_prefix (urlsplit u).path
    have hpath_sub : ∀ c ∈ (urlparse u).path, c ∈ (urlsplit u).path := by
      intro c hc
      rw [hpre]
      exact List.mem_append_left _ (hid ▸ hc)
    have hhash : '#' ∉ (urlparse u).path := fun hm => hphash (hpath_sub _ hm)
    have hquest : '?' ∉ (urlparse u).path := fun hm => hpquest (hpath_sub _ hm)
    have hshape : (urlparse u).path = [] ∨ ∃ r, (urlparse u).path = '/' :: r := by
      cases hc : (urlparse u).path with
      | nil => exact Or.inl rfl
      | cons pc pt =>
        right
        have hsplit : (urlsplit u).path = pc :: (pt ++ sfx) := by
          rw [hpre, ← hid, hc]; rfl
        rcases hpshape (fun he => hn (hnn ▸ he)) with he | ⟨r, he⟩
        · rw [he] at hsplit; exact absurd hsplit (by simp)
        · rw [he] at hsplit
          have : pc = '/' := by
            have h2 := hsplit
            injection h2 with h3 _
            exact h3.symm
          exact ⟨pt, by rw [this]⟩
    -- the path written by the first normalization pass
    obtain ⟨pr, hP, hPh, hPq, hPs, hPfix⟩ :
        ∃ pr, (if rstripSlash (urlparse u).path = [] then str "/"
                else rstripSlash (urlparse u).path) = '/' :: pr
          ∧ '#' ∉ ('/' :: pr) ∧ '?' ∉ ('/' :: pr) ∧ ';' ∉ ('/' :: pr)
          ∧ (if rstripSlash ('/' :: pr) = [] then str "/"
              else rstripSlash ('/' :: pr)) = '/' :: pr := by
      by_cases hrs : rstripSlash (urlparse u).path = []
      · refine ⟨[], by rw [if_pos hrs]; rfl, by decide, by decide, by decide, by decide⟩
      · rcases hshape with he | ⟨pt, he⟩
        · rw [he] at hrs; exact absurd rfl hrs
        · have hrh := rstripSlash_head '/' pt
          rw [← he] at hrh
          rcases hrh with h2 | ⟨r, h2⟩
          · exact absurd h2 hrs
          · have hsubmem : ∀ c ∈ ('/' :: r : Str), c ∈ (urlparse u).path := by
              intro c hc
              rw [← h2] at hc
              exact mem_rstripSlash hc
            refine ⟨r, by rw [if_neg hrs, h2], ?_, ?_, ?_, ?_⟩
            · exact fun hm => hhash (hsubmem _ hm)
            · exact fun hm => hquest (hsubmem _ hm)
            · exact fun hm => h (hsubmem _ hm)
            · have h3 : rstripSlash ('/' :: r) = '/' :: r := by
                rw [← h2, rstripSlash_idem]
              rw [h3, if_neg (by simp : ¬ ('/' :: r : Str) = [])]
    -- the scheme written by the first normalization pass
    obtain ⟨hS1, hS2, hS3, hS4⟩ :
        (if (urlparse u).scheme = [] then str "https" else (urlparse u).scheme) ≠ []
        ∧ (((if (urlparse u).scheme = [] then str "https"
              else (urlparse u).scheme).headD 'x').isAlpha = true)
        ∧ (∀ c ∈ (if (urlparse u).scheme = [] then str "https" else (urlparse u).scheme),
            isSchemeChar c = true)
        ∧ lowerAscii (if (urlparse u).scheme = [] then str "https" else (urlparse u).scheme)
            = (if (urlparse u).scheme = [] then str "https" else (urlparse u).scheme) := by
      by_cases hsc : (urlparse u).scheme = []
      · rw [if_pos hsc]
        exact ⟨by decide, by decide, by decide, by decide⟩
      · rw [if_neg hsc]
        rcases schemeSplit_props u with he | ⟨h1, h2, h3, h4⟩
        · exact absurd (hss ▸ he) hsc
        · rw [hss]
          exact ⟨h1, h3, h2, h4⟩
    have hDnl2 : ∀ c ∈ (urlparse u).netloc, isNetlocDelim c = false := by
      intro c hc
      exact hDnl c (hnn ▸ hc)
    have hqh2 : '#' ∉ (urlparse u).query := fun hm => hqhash (hqq ▸ hm)
    rw [normalize_url_eq u hn, hP]
    exact normalize_url_fixpoint _ _ pr _ _ hS1 hS2 hS3 hS4 hDnl2 hn hPh hPq hPs hqh2 hPfix

/-- Witness for C9 amended at `https://univ-x.dz/a/` (no `;` in the path). -/
theorem C9_witness :
    ';' ∉ (urlparse (str "https://univ-x.dz/a/")).path
    ∧ normalize_url (normalize_url (str "https://univ-x.dz/a/"))
        = normalize_url (str "https://univ-x.dz/a/") :=
  ⟨by decide, C9_amended_idempotent (str "https://univ-x.dz/a/") (by decide)⟩

/-! ## Fetch executor (`fetch_html`, scraper.py lines 267-440)

The HTTP client is the external collaborator of spec section 6; it is
abstracted as an oracle mapping a URL variant and an attempt index to the
outcome the `requests` call would produce.  Sleeping, user-agent rotation and
header juggling are I/O without influence on control flow and are elided. -/

/-- Outcome of one `session.get` call, one constructor per `except` arm of
`fetch_html` (a `success` carries the response body). -/
inductive FetchOutcome where
  | success (body : Str)
  | httpStatus (code : Nat)
  | nameResolutionFailure
  | connectionFailure
  | timeoutFailure
  | sslFailure
  | requestFailure
deriving DecidableEq, Repr

/-- Result of the inner attempt loop for one URL variant: either the function
returns (`ret`), or control falls through to the next variant. -/
inductive AttemptStep where
  | ret (r : Option Str)
  | nextVariant
deriving DecidableEq, Repr

/-- The inner `for attempt in range(current_retries)` loop of `fetch_html` for
one URL variant `v`; `isLast` states whether `v` is the last variant
(`url_to_try == url_variants[-1]`; the two variants are always distinct).
The list argument is the remaining attempt indices. -/
def runAttempts (oracle : Str → Nat → FetchOutcome) (isLast : Bool) (v : Str)
    (retries : Nat) : List Nat → AttemptStep
  | [] => .nextVariant
  | a :: rest =>
    match oracle v a with
    | .success body => .ret (some body)
    | .httpStatus code =>
      if code = 404 ∨ code = 403 then
        if isLast then .ret none else .nextVariant
      else if a < retries - 1 then runAttempts oracle isLast v retries rest
      else if isLast then .ret none
      else runAttempts oracle isLast v retries rest
    | .nameResolutionFailure => if isLast then .ret none else .nextVariant
    | .connectionFailure =>
      if a = 0 ∧ isLast = false then .nextVariant
      else if isLast then .ret none
      else runAttempts oracle isLast v retries rest
    | .timeoutFailure =>
      if a = 0 ∧ isLast = false then .nextVariant
      else if isLast then .ret none
      else runAttempts oracle isLast v retries rest
    | .sslFailure => if isLast then .ret none else .nextVariant
    | .requestFailure =>
      if a < retries - 1 then runAttempts oracle isLast v retries rest
      else if isLast then .ret none
      else runAttempts oracle isLast v retries rest

/-- The outer `for url_to_try in url_variants` loop of `fetch_html`. -/
def runVariants (oracle : Str → Nat → FetchOutcome) (retries : Nat) :
    List Str → Option Str
  | [] => none
  | [v] =>
    match runAttempts oracle true v retries (List.range retries) with
    | .ret r => r
    | .nextVariant => none
  | v :: v2 :: rest =>
    match runAttempts oracle false v retries (List.range retries) with
    | .ret r => r
    | .nextVariant => runVariants oracle retries (v2 :: rest)

/-- The inner `ensure_https` of `fetch_html` (scraper.py lines 271-291). -/
def ensure_https (u : Str) : Str :=
  let p := urlparse u
  if p.netloc = [] then u
  else if p.scheme = [] ∨ p.scheme = str "http" then
    str "https://" ++ p.netloc
      ++ (if p.path ≠ [] then p.path else if p.query ≠ [] then str "/" else [])
      ++ (if p.query ≠ [] then '?' :: p.query else [])
      ++ (if p.fragment ≠ [] then '#' :: p.fragment else [])
  else u

/-- The inner `try_www_variants` of `fetch_html` (scraper.py lines 294-323):
the URL as given plus the variant with a `www.` label toggled. -/
def try_www_variants (u : Str) : List Str :=
  let p := urlparse u
  if p.netloc = [] then [u]
  else
    let scheme := if p.scheme = [] then str "https" else p.scheme
    let newNetloc :=
      if (str "www.").isPrefixOf p.netloc then p.netloc.drop 4
      else str "www." ++ p.netloc
    [u, scheme ++ str "://" ++ newNetloc ++ (if p.path = [] then str "/" else p.path)
      ++ (if p.query = [] then [] else '?' :: p.query)
      ++ (if p.fragment = [] then [] else '#' :: p.fragment)]

/-- `fetch_html` (scraper.py lines 267-440): normalize to https, build the
www/non-www variants, then run the variant/attempt loops against the HTTP
oracle.  `none` models returning `None`. -/
def fetch_html (oracle : Str → Nat → FetchOutcome) (retries : Nat) (url : Str) :
    Option Str :=
  runVariants oracle retries (try_www_variants (ensure_https url))

/-! ## Claim C2: DNS failure handling in `fetch_html` -/

/-- HTTP oracle for the C2 counterexample: name resolution fails for the
URL as given, while the `www.` variant succeeds. -/
def c2Oracle : Str → Nat → FetchOutcome := fun v _ =>
  if v = str "https://univ-x.dz/" then .nameResolutionFailure
  else .success (str "ok")

/-- C2 counterexample: the fetch of `https://univ-x.dz/` fails with a
name-resolution failure, yet `fetch_html` does NOT abandon the URL: it falls
back to the `www.` host variant and returns its body, so the result is not
the fatal-host `None` the claim requires. -/
theorem C2_counterexample :
    c2Oracle (str "https://univ-x.dz/") 0 = FetchOutcome.nameResolutionFailure
    ∧ fetch_html c2Oracle 3 (str "https://univ-x.dz/") ≠ none := by
  exact ⟨rfl, by decide⟩

theorem runAttempts_dns (oracle : Str → Nat → FetchOutcome) (isLast : Bool)
    (v : Str) (retries : Nat) (a : Nat) (rest : List Nat)
    (h : oracle v a = FetchOutcome.nameResolutionFailure) :
    runAttempts oracle isLast v retries (a :: rest)
      = if isLast then .ret none else .nextVariant := by
  simp only [runAttempts]
  rw [h]

/-- C2 amended: on a name-resolution failure `fetch_html` performs no retry of
the same URL variant (the very first DNS failure ends that variant's attempt
loop regardless of the remaining retry budget), but it does NOT abandon the
URL: it proceeds to the next host variant (`www.` toggle).  Only when the DNS
failure hits the last variant does it return `None`. -/
theorem C2_amended_dns_behavior (oracle : Str → Nat → FetchOutcome) (r : Nat)
    (url v1 v2 : Str)
    (hv : try_www_variants (ensure_https url) = [v1, v2])
    (hdns : oracle v1 0 = FetchOutcome.nameResolutionFailure) :
    fetch_html oracle (r + 1) url = runVariants oracle (r + 1) [v2]
    ∧ (oracle v2 0 = FetchOutcome.nameResolutionFailure →
        fetch_html oracle (r + 1) url = none) := by
  have hrange : List.range (r + 1) = 0 :: List.map Nat.succ (List.range r) :=
    List.range_succ_eq_map r
  have h1 : runAttempts oracle false v1 (r + 1) (List.range (r + 1)) = .nextVariant := by
    rw [hrange, runAttempts_dns oracle false v1 (r + 1) 0 _ hdns]
    simp
  have hfe : fetch_html oracle (r + 1) url = runVariants oracle (r + 1) [v1, v2] := by
    unfold fetch_html
    rw [hv]
  have hmain : fetch_html oracle (r + 1) url = runVariants oracle (r + 1) [v2] := by
    rw [hfe]
    simp only [runVariants]
    rw [h1]
  refine ⟨hmain, ?_⟩
  intro h2
  have h3 : runAttempts oracle true v2 (r + 1) (List.range (r + 1)) = .ret none := by
    rw [hrange, runAttempts_dns oracle true v2 (r + 1) 0 _ h2]
    simp
  rw [hmain]
  simp only [runVariants]
  rw [h3]

/-- HTTP oracle for the C2 witness: every variant fails name resolution. -/
def c2OracleAllDns : Str → Nat → FetchOutcome := fun _ _ => .nameResolutionFailure

/-- Witness for C2 amended: with DNS failing on both variants of
`https://univ-x.dz/`, the first variant is left after one attempt, the second
variant is tried, and the overall result is `None`. -/
theorem C2_witness :
    try_www_variants (ensure_https (str "https://univ-x.dz/"))
      = [str "https://univ-x.dz/", str "https://www.univ-x.dz/"]
    ∧ c2OracleAllDns (str "https://univ-x.dz/") 0 = FetchOutcome.nameResolutionFailure
    ∧ fetch_html c2OracleAllDns 3 (str "https://univ-x.dz/")
        = runVariants c2OracleAllDns 3 [str "https://www.univ-x.dz/"]
    ∧ fetch_html c2OracleAllDns 3 (str "https://univ-x.dz/") = none :=
  ⟨by decide, rfl,
    (C2_amended_dns_behavior c2OracleAllDns 2 (str "https://univ-x.dz/")
      (str "https://univ-x.dz/") (str "https://www.univ-x.dz/") (by decide) rfl).1,
    (C2_amended_dns_behavior c2OracleAllDns 2 (str "https://univ-x.dz/")
      (str "https://univ-x.dz/") (str "https://www.univ-x.dz/") (by decide) rfl).2 rfl⟩

/-! ## Identifier extraction (scraper.py lines 227-265 and 442-571)

The shared pattern matcher is `re.compile(r'[\w.\-+%]+@[\w.\-]+\.dz\b',
re.IGNORECASE)` used through `finditer`.  The matcher below reproduces its
semantics for this fixed pattern: at each scan position, a maximal run of
local-part characters, a literal `@`, then a greedy (longest-first,
backtracking) run of domain characters followed by a case-insensitive `.dz`
and a word boundary; scanning resumes after each match. -/

/-- `\w` (ASCII). -/
def isWordChar (c : Char) : Bool := c.isAlpha || c.isDigit || c = '_'

/-- The local-part character class `[\w.\-+%]`. -/
def isLocalChar (c : Char) : Bool :=
  isWordChar c || c = '.' || c = '-' || c = '+' || c = '%'

/-- The domain character class `[\w.\-]`. -/
def isDomainChar (c : Char) : Bool := isWordChar c || c = '.' || c = '-'

/-- Does `l` start with `.dz` (case-insensitive) followed by a word boundary? -/
def isDzSuffixAt : Str → Bool
  | '.' :: d :: z :: rest =>
    toLowerCh d = 'd' && toLowerCh z = 'z' &&
      (match rest with
       | [] => true
       | c :: _ => !isWordChar c)
  | _ => false

/-- Greedy backtracking of the `[\w.\-]+\.dz\b` tail: try domain-run prefixes
of `afterAt` from length `k` downward; returns the matched domain part
(including its actual 3-character `.dz`-ish suffix) and the remainder. -/
def tryDomainLen (afterAt : Str) : Nat → Option (Str × Str)
  | 0 => none
  | k + 1 =>
    let rest := afterAt.drop (k + 1)
    if isDzSuffixAt rest then
      some (afterAt.take (k + 1) ++ rest.take 3, rest.drop 3)
    else tryDomainLen afterAt k

/-- One match attempt anchored at the start of `l`: `some (matchText,
remainder)` on success. -/
def matchEmailAt (l : Str) : Option (Str × Str) :=
  let lrun := l.takeWhile isLocalChar
  if lrun = [] then none
  else
    match l.drop lrun.length with
    | '@' :: rest =>
      match tryDomainLen rest (rest.takeWhile isDomainChar).length with
      | some (dom, rem) => some (lrun ++ '@' :: dom, rem)
      | none => none
    | _ => none

/-- The scan loop of `finditer`: try to match at each position, emit the match
and continue after it.  The fuel is the text length; every step consumes at
least one character, so it never runs out. -/
def findEmailGo : Nat → Str → List Str
  | 0, _ => []
  | _, [] => []
  | fuel + 1, c :: t =>
    match matchEmailAt (c :: t) with
    | some (m, rem) => m :: findEmailGo fuel rem
    | none => findEmailGo fuel t

/-- All matches of the e-mail pattern in `text`, in order. -/
def findEmailMatches (text : Str) : List Str := findEmailGo text.length text

/-- One raw occurrence record (`IdentifierRecord`).  The timestamp
(`datetime.utcnow()`), page title and context snippet are I/O- or
presentation-only fields with no influence on the claims and are elided. -/
structure EmailRecord where
  email : Str
  local_part : Str
  domain : Str
  source_url : Str
  source_type : Str
  parse_method : Str
deriving DecidableEq, Repr

/-- The record-building tail shared by every channel: split the (already
lower-cased) identifier at the first `@`; a failed split skips the single
match (the defensive `except ValueError: continue`). -/
def mkRecords (el url stype pm : Str) : List EmailRecord :=
  match splitFirst '@' el with
  | some (lp, dom) => [⟨el, lp, dom, url, stype, pm⟩]
  | none => []

/-- Classifier gate plus record construction, as repeated in every channel:
drop the match when `is_institutional_email` holds, else build the record. -/
def acceptEmail (el url stype pm : Str) : List EmailRecord :=
  if is_institutional_email el then [] else mkRecords el url stype pm

/-- `extract_emails_from_text` (scraper.py lines 227-265): regex matches over
plain text, lower-cased, classifier-filtered. -/
def extract_emails_from_text (text url stype : Str) : List EmailRecord :=
  (findEmailMatches text).flatMap
    (fun m => acceptEmail (lowerAscii m) url stype (str "regex_" ++ stype))

/-- The navigable tree produced by the HTML structural parser — the external
collaborator of spec section 6 — restricted to what
`extract_emails_from_html` traverses: anchors with their `href`, values of
`data-email` attributes, `content` values of meta tags, the visible body
text, and inline script payloads. -/
structure PageTree where
  anchors : List (Str × Str)
  dataEmailTags : List Str
  metaContents : List Str
  bodyText : Str
  scripts : List Str

/-- Python `href.replace('mailto:', '')`: remove every occurrence.  The fuel
is the string length; each removal step consumes at least one character. -/
def removeMailtoGo : Nat → Str → Str
  | 0, l => l
  | _, [] => []
  | fuel + 1, c :: t =>
    if (str "mailto:").isPrefixOf (c :: t) then removeMailtoGo fuel (t.drop 6)
    else c :: removeMailtoGo fuel t

def removeMailto (l : Str) : Str := removeMailtoGo l.length l

/-- Within-page dedup by identifier string (scraper.py lines 562-569), first
occurrence wins; `seen` is the accumulated `seen_emails` set. -/
def dedupeByEmail : List EmailRecord → List Str → List EmailRecord
  | [], _ => []
  | r :: t, seen =>
    if r.email ∈ seen then dedupeByEmail t seen
    else r :: dedupeByEmail t (r.email :: seen)

/-- `extract_emails_from_html` (scraper.py lines 442-571): the five channels
in source order — mailto anchors, `data-email` attributes, meta contents,
body text, script payloads — then within-page deduplication by identifier
(first occurrence wins). -/
def extract_emails_from_html (page : PageTree) (url : Str) : List EmailRecord :=
  let mailtoRecords := page.anchors.flatMap (fun a =>
    if (str "mailto:").isPrefixOf a.1 then
      let e := pyStrip ((splitOnChar '?' (removeMailto a.1)).headD [])
      if containsChar '@' e && (str ".dz").isSuffixOf e then
        acceptEmail (lowerAscii e) url (str "html") (str "mailto_link")
      else []
    else [])
  let dataRecords := page.dataEmailTags.flatMap (fun v =>
    let e := pyStrip v
    if containsChar '@' e && (str ".dz").isSuffixOf e then
      acceptEmail (lowerAscii e) url (str "html") (str "data_attribute")
    else [])
  let metaRecords := page.metaContents.flatMap (fun content =>
    if containsChar '@' content && containsSubstr (str ".dz") content then
      (findEmailMatches content).flatMap
        (fun m => acceptEmail (lowerAscii m) url (str "html") (str "meta_tag"))
    else [])
  let textRecords := extract_emails_from_text page.bodyText url (str "html")
  let scriptRecords := page.scripts.flatMap (fun s =>
    if s = [] then []
    else (findEmailMatches s).flatMap
      (fun m => acceptEmail (lowerAscii m) url (str "html") (str "script_tag")))
  dedupeByEmail (mailtoRecords ++ dataRecords ++ metaRecords ++ textRecords ++ scriptRecords) []

/-! ## Claim C5: extraction selectivity -/

/-- The C5 page: one `mailto:` anchor to `k.said@univ-x.dz` and the body text
containing `contact@univ-x.dz`. -/
def c5page : PageTree :=
  { anchors := [(str "mailto:k.said@univ-x.dz", str "K. Said")]
    dataEmailTags := []
    metaContents := []
    bodyText := str "Contactez: contact@univ-x.dz merci"
    scripts := [] }

/-- C5: on a page with a `mailto:` link to `k.said@univ-x.dz` and the body
text `contact@univ-x.dz`, `extract_emails_from_html` returns exactly one
accepted record, for `k.said@univ-x.dz` (`contact@univ-x.dz` is rejected by
the classifier's denylist). -/
theorem C5_extraction_selectivity :
    (extract_emails_from_html c5page (str "https://univ-x.dz/p")).map EmailRecord.email
      = [str "k.said@univ-x.dz"] := by
  decide

/-! ## Claim C10: extracted records are stored lower-cased -/

theorem lowerAscii_eq_self_of_forall :
    ∀ {l : Str}, (∀ c ∈ l, toLowerCh c = c) → lowerAscii l = l
  | [], _ => rfl
  | c :: t, h => by
    have hc := h c (List.mem_cons_self c t)
    have ht := lowerAscii_eq_self_of_forall (fun x hx => h x (List.mem_cons_of_mem c hx))
    simp only [lowerAscii, List.map_cons] at ht ⊢
    rw [hc, ht]

theorem forall_of_lowerAscii_eq_self :
    ∀ {l : Str}, lowerAscii l = l → ∀ c ∈ l, toLowerCh c = c := by
  intro l
  induction l with
  | nil => intro _ c hc; exact absurd hc (by simp)
  | cons c0 t ih =>
    intro h c hc
    simp only [lowerAscii, List.map_cons] at h
    injection h with h1 h2
    rcases List.mem_cons.1 hc with rfl | hc2
    · exact h1
    · exact ih h2 c hc2

theorem mem_of_mem_ite_nil {α : Type} {c : Prop} [Decidable c] {xs : List α} {r : α}
    (h : r ∈ if c then xs else []) : r ∈ xs := by
  split at h
  · exact h
  · exact absurd h (by simp)

theorem mem_mkRecords {el url st pm : Str} {r : EmailRecord}
    (h : r ∈ mkRecords el url st pm) :
    r.email = el ∧ splitFirst '@' el = some (r.local_part, r.domain) := by
  unfold mkRecords at h
  cases hs : splitFirst '@' el with
  | none => rw [hs] at h; exact absurd h (by simp)
  | some p =>
    obtain ⟨lp, dom⟩ := p
    rw [hs] at h
    simp only [List.mem_singleton] at h
    subst h
    exact ⟨rfl, rfl⟩

theorem mem_acceptEmail {el url st pm : Str} {r : EmailRecord}
    (h : r ∈ acceptEmail el url st pm) : r ∈ mkRecords el url st pm := by
  unfold acceptEmail at h
  split at h
  · exact absurd h (by simp)
  · exact h

theorem mem_dedupeByEmail {r : EmailRecord} :
    ∀ {l : List EmailRecord} {seen : List Str}, r ∈ dedupeByEmail l seen → r ∈ l := by
  intro l
  induction l with
  | nil => intro seen h; exact absurd h (by simp [dedupeByEmail])
  | cons r0 t ih =>
    intro seen h
    unfold dedupeByEmail at h
    split at h
    · exact List.mem_cons_of_mem r0 (ih h)
    · rcases List.mem_cons.1 h with rfl | h2
      · exact List.mem_cons_self r t
      · exact List.mem_cons_of_mem r0 (ih h2)

theorem extract_email_lowered (page : PageTree) (url : Str) (r : EmailRecord)
    (h : r ∈ extract_emails_from_html page url) :
    (∃ x, r.email = lowerAscii x)
    ∧ splitFirst '@' r.email = some (r.local_part, r.domain) := by
  unfold extract_emails_from_html at h
  have h2 := mem_dedupeByEmail h
  have key : ∀ el u st pm, r ∈ acceptEmail (lowerAscii el) u st pm →
      (∃ x, r.email = lowerAscii x) ∧ splitFirst '@' r.email = some (r.local_part, r.domain) := by
    intro el u st pm hmem
    obtain ⟨he, hs⟩ := mem_mkRecords (mem_acceptEmail hmem)
    exact ⟨⟨el, he⟩, he ▸ hs⟩
  rcases List.mem_append.1 h2 with h3 | h5
  rotate_left
  · -- script channel
    obtain ⟨s0, _, hb⟩ := List.mem_flatMap.1 h5
    split at hb
    · exact absurd hb (by simp)
    · obtain ⟨m, _, hmem⟩ := List.mem_flatMap.1 hb
      exact key m _ _ _ hmem
  rcases List.mem_append.1 h3 with h4 | h5
  rotate_left
  · -- body-text channel
    unfold extract_emails_from_text at h5
    obtain ⟨m, _, hmem⟩ := List.mem_flatMap.1 h5
    exact key m _ _ _ hmem
  rcases List.mem_append.1 h4 with h5 | h6
  rotate_left
  · -- meta channel
    obtain ⟨content, _, hb⟩ := List.mem_flatMap.1 h6
    have hb2 := mem_of_mem_ite_nil hb
    obtain ⟨m, _, hmem⟩ := List.mem_flatMap.1 hb2
    exact key m _ _ _ hmem
  rcases List.mem_append.1 h5 with h6 | h7
  · -- mailto channel
    obtain ⟨a, _, hb⟩ := List.mem_flatMap.1 h6
    split at hb
    · exact key _ _ _ _ (mem_of_mem_ite_nil hb)
    · exact absurd hb (by simp)
  · -- data-attribute channel
    obtain ⟨v, _, hb⟩ := List.mem_flatMap.1 h7
    exact key _ _ _ _ (mem_of_mem_ite_nil hb)

/-- C10: every record produced by any of the five extraction channels stores
the identifier, local part and domain part already lower-cased: each of the
three string fields equals its own lower-casing. -/
theorem C10_records_lowercased (page : PageTree) (url : Str) (r : EmailRecord)
    (h : r ∈ extract_emails_from_html page url) :
    lowerAscii r.email = r.email
    ∧ lowerAscii r.local_part = r.local_part
    ∧ lowerAscii r.domain = r.domain := by
  obtain ⟨⟨x, hx⟩, hsplit⟩ := extract_email_lowered page url r h
  have hfix : lowerAscii r.email = r.email := by
    rw [hx, lowerAscii_idem]
  have hpt := forall_of_lowerAscii_eq_self hfix
  obtain ⟨heq, _⟩ := splitFirst_some hsplit
  refine ⟨hfix, ?_, ?_⟩
  · exact lowerAscii_eq_self_of_forall
      (fun c hc => hpt c (heq ▸ List.mem_append_left _ hc))
  · exact lowerAscii_eq_self_of_forall
      (fun c hc => hpt c (heq ▸ List.mem_append_right _ (List.mem_cons_of_mem '@' hc)))

/-- The C10 witness page: a single `mailto:` anchor written in mixed case. -/
def c10page : PageTree :=
  { anchors := [(str "mailto:K.Said@UNIV-X.dz", str "K. Said")]
    dataEmailTags := []
    metaContents := []
    bodyText := []
    scripts := [] }

/-- Witness for C10: the record extracted from a mixed-case `mailto:` anchor
is a member of the extraction result and all three string fields are
lower-case fixed points. -/
theorem C10_witness :
    (⟨str "k.said@univ-x.dz", str "k.said", str "univ-x.dz",
      str "https://univ-x.dz/p", str "html", str "mailto_link"⟩ : EmailRecord)
        ∈ extract_emails_from_html c10page (str "https://univ-x.dz/p")
    ∧ (lowerAscii (str "k.said@univ-x.dz") = str "k.said@univ-x.dz"
       ∧ lowerAscii (str "k.said") = str "k.said"
       ∧ lowerAscii (str "univ-x.dz") = str "univ-x.dz") :=
  ⟨by decide,
    C10_records_lowercased c10page (str "https://univ-x.dz/p")
      ⟨str "k.said@univ-x.dz", str "k.said", str "univ-x.dz",
        str "https://univ-x.dz/p", str "html", str "mailto_link"⟩ (by decide)⟩

/-! ## Persistence and dedup (`clean_and_dedupe_emails`, scraper.py lines 1290-1359)

A raw CSV row is modelled by the four fields the function reads; `found_at`
is assumed present (the `datetime.utcnow()` default of `row.get` only fires
on a malformed CSV and is I/O).  The Python dict is modelled as an
insertion-ordered association list: new keys are appended, existing keys are
updated in place, and the canonical table is the list of values. -/

structure RawRow where
  email : Str
  domain : Str
  source_url : Str
  found_at : Str

structure CanonRecord where
  email : Str
  domain : Str
  first_seen : Str
  sources : Str
  verified : Str
  status : Str
  notes : Str
deriving DecidableEq, Repr

/-- First insertion of an identifier (scraper.py lines 1320-1333). -/
def newCanon (email : Str) (row : RawRow) : CanonRecord :=
  { email := email
    domain := lowerAscii (if row.domain = [] then (splitOnChar '@' email).getD 1 [] else row.domain)
    first_seen := row.found_at
    sources := row.source_url
    verified := str "false"
    status := str "unknown"
    notes := [] }

/-- Merge of a further occurrence into an existing canonical entry
(scraper.py lines 1334-1345): append the source URL unless already among the
semicolon-separated sources, then lower the first-seen timestamp if the new
row is strictly earlier (string comparison). -/
def mergeRow (r : CanonRecord) (row : RawRow) : CanonRecord :=
  let r1 :=
    if row.source_url ≠ [] ∧ row.source_url ∉ splitOnChar ';' r.sources
    then { r with sources := r.sources ++ ';' :: row.source_url } else r
  if row.found_at ≠ [] ∧ strLt row.found_at r1.first_seen = true
  then { r1 with first_seen := row.found_at } else r1

/-- The body of the row loop of `clean_and_dedupe_emails` (scraper.py lines
1306-1345). -/
def cleanRow (st : List (Str × CanonRecord)) (row : RawRow) : List (Str × CanonRecord) :=
  if row.email = [] then st
  else
    let email := pyStrip (lowerAscii row.email)
    if email = [] then st
    else if ¬ containsChar '@' email = true then st
    else if is_institutional_email email then st
    else if st.any (fun kv => kv.1 == email) then
      st.map (fun kv => if kv.1 = email then (kv.1, mergeRow kv.2 row) else kv)
    else st ++ [(email, newCanon email row)]

/-- `clean_and_dedupe_emails`: fold the raw rows through the dict model and
emit the values in insertion order (the rewritten canonical table). -/
def clean_and_dedupe_emails (rows : List RawRow) : List CanonRecord :=
  (rows.foldl cleanRow []).map Prod.snd

theorem splitOnChar_of_notMem {sep : Char} :
    ∀ {l : Str}, sep ∉ l → splitOnChar sep l = [l]
  | [], _ => rfl
  | c :: t, h => by
    have hc : ¬ c = sep := fun hcd => h (hcd ▸ List.mem_cons_self c t)
    have ht := splitOnChar_of_notMem (fun hm => h (List.mem_cons_of_mem c hm))
    unfold splitOnChar
    rw [ht, if_neg hc]

theorem splitOnChar_append {sep : Char} {a : Str} (b : Str)
    (ha : sep ∉ a) (hb : sep ∉ b) :
    splitOnChar sep (a ++ sep :: b) = [a, b] := by
  induction a with
  | nil =>
    rw [List.nil_append]
    unfold splitOnChar
    rw [splitOnChar_of_notMem hb, if_pos rfl]
  | cons c t ih =>
    have hc : ¬ c = sep := fun hcd => ha (hcd ▸ List.mem_cons_self c t)
    have ih2 := ih (fun hm => ha (List.mem_cons_of_mem c hm))
    rw [List.cons_append]
    unfold splitOnChar
    rw [ih2, if_neg hc]

theorem strLt_asymm : ∀ {a b : Str}, strLt a b = true → strLt b a = false
  | [], [], h => by simp [strLt] at h
  | [], _ :: _, _ => by simp [strLt]
  | _ :: _, [], h => by simp [strLt] at h
  | a :: as, b :: bs, h => by
    unfold strLt at h ⊢
    by_cases h1 : a < b
    · rw [if_neg (lt_asymm h1), if_pos h1]
    · rw [if_neg h1] at h
      by_cases h2 : b < a
      · rw [if_pos h2] at h
        exact absurd h (by simp)
      · rw [if_neg h2] at h
        rw [if_neg h2, if_neg h1]
        exact strLt_asymm h

theorem mergeRow_eq (r : CanonRecord) (row : RawRow)
    (h1 : row.source_url ≠ []) (h2 : row.source_url ∉ splitOnChar ';' r.sources)
    (h3 : row.found_at ≠ []) (h4 : strLt row.found_at r.first_seen = true) :
    mergeRow r row =
      { r with sources := r.sources ++ ';' :: row.source_url,
               first_seen := row.found_at } := by
  have hinner : (if row.source_url ≠ [] ∧ row.source_url ∉ splitOnChar ';' r.sources
      then { r with sources := r.sources ++ ';' :: row.source_url } else r)
      = { r with sources := r.sources ++ ';' :: row.source_url } := if_pos ⟨h1, h2⟩
  unfold mergeRow
  rw [hinner]
  rw [if_pos ⟨h3, h4⟩]

theorem mergeRow_eq_keep (r : CanonRecord) (row : RawRow)
    (h1 : row.source_url ≠ []) (h2 : row.source_url ∉ splitOnChar ';' r.sources)
    (h4 : strLt row.found_at r.first_seen = false) :
    mergeRow r row = { r with sources := r.sources ++ ';' :: row.source_url } := by
  have hinner : (if row.source_url ≠ [] ∧ row.source_url ∉ splitOnChar ';' r.sources
      then { r with sources := r.sources ++ ';' :: row.source_url } else r)
      = { r with sources := r.sources ++ ';' :: row.source_url } := if_pos ⟨h1, h2⟩
  unfold mergeRow
  rw [hinner]
  rw [if_neg ?hc]
  case hc =>
    intro hc
    have hx : strLt row.found_at r.first_seen = true := hc.2
    rw [h4] at hx
    exact Bool.noConfusion hx

set_option maxHeartbeats 2000000 in
/-- C4: two raw rows for `K.Said@univ-x.dz` (source `A`, timestamp `tA`) and
`k.said@univ-x.dz` (source `B`, strictly earlier timestamp `tB`) merge — in
either raw-store order — into exactly one canonical row keyed by the
case-folded `k.said@univ-x.dz`, with domain `univ-x.dz`, first-seen `tB`, and
the semicolon-joined sources containing `A` and `B` exactly once each. -/
theorem C4_dedup_merge (A B tA tB : Str)
    (hAB : A ≠ B) (hA : ';' ∉ A) (hB : ';' ∉ B)
    (hAne : A ≠ []) (hBne : B ≠ [])
    (htA : tA ≠ []) (htB : tB ≠ [])
    (hlt : strLt tB tA = true) :
    clean_and_dedupe_emails
        [⟨str "K.Said@univ-x.dz", str "univ-x.dz", A, tA⟩,
         ⟨str "k.said@univ-x.dz", str "univ-x.dz", B, tB⟩]
      = [⟨str "k.said@univ-x.dz", str "univ-x.dz", tB, A ++ ';' :: B,
          str "false", str "unknown", []⟩]
    ∧ clean_and_dedupe_emails
        [⟨str "k.said@univ-x.dz", str "univ-x.dz", B, tB⟩,
         ⟨str "K.Said@univ-x.dz", str "univ-x.dz", A, tA⟩]
      = [⟨str "k.said@univ-x.dz", str "univ-x.dz", tB, B ++ ';' :: A,
          str "false", str "unknown", []⟩]
    ∧ splitOnChar ';' (A ++ ';' :: B) = [A, B]
    ∧ splitOnChar ';' (B ++ ';' :: A) = [B, A] := by
  refine ⟨?_, ?_, splitOnChar_append B hA hB, splitOnChar_append A hB hA⟩
  · have h1 : List.foldl cleanRow []
        [(⟨str "K.Said@univ-x.dz", str "univ-x.dz", A, tA⟩ : RawRow),
         ⟨str "k.said@univ-x.dz", str "univ-x.dz", B, tB⟩]
        = [(str "k.said@univ-x.dz",
            mergeRow
              ⟨str "k.said@univ-x.dz", str "univ-x.dz", tA, A,
                str "false", str "unknown", []⟩
              ⟨str "k.said@univ-x.dz", str "univ-x.dz", B, tB⟩)] := rfl
    have hc2 : B ∉ splitOnChar ';' A := by
      rw [splitOnChar_of_notMem hA]
      simp only [List.mem_singleton]
      exact fun he => hAB he.symm
    have hm := mergeRow_eq
      ⟨str "k.said@univ-x.dz", str "univ-x.dz", tA, A, str "false", str "unknown", []⟩
      ⟨str "k.said@univ-x.dz", str "univ-x.dz", B, tB⟩ hBne hc2 htB hlt
    show (List.foldl cleanRow [] _).map Prod.snd = _
    rw [h1]
    simp only [List.map_cons, List.map_nil]
    rw [hm]
  · have h1 : List.foldl cleanRow []
        [(⟨str "k.said@univ-x.dz", str "univ-x.dz", B, tB⟩ : RawRow),
         ⟨str "K.Said@univ-x.dz", str "univ-x.dz", A, tA⟩]
        = [(str "k.said@univ-x.dz",
            mergeRow
              ⟨str "k.said@univ-x.dz", str "univ-x.dz", tB, B,
                str "false", str "unknown", []⟩
              ⟨str "K.Said@univ-x.dz", str "univ-x.dz", A, tA⟩)] := rfl
    have hc2 : A ∉ splitOnChar ';' B := by
      rw [splitOnChar_of_notMem hB]
      simp only [List.mem_singleton]
      exact hAB
    have hm := mergeRow_eq_keep
      ⟨str "k.said@univ-x.dz", str "univ-x.dz", tB, B, str "false", str "unknown", []⟩
      ⟨str "K.Said@univ-x.dz", str "univ-x.dz", A, tA⟩ hAne hc2 (strLt_asymm hlt)
    show (List.foldl cleanRow [] _).map Prod.snd = _
    rw [h1]
    simp only [List.map_cons, List.map_nil]
    rw [hm]

/-- Witness for C4 at concrete sources and timestamps. -/
theorem C4_witness :
    (str "https://a.univ-x.dz/p1" ≠ str "https://b.univ-x.dz/p2"
     ∧ ';' ∉ str "https://a.univ-x.dz/p1" ∧ ';' ∉ str "https://b.univ-x.dz/p2"
     ∧ str "https://a.univ-x.dz/p1" ≠ ([] : Str) ∧ str "https://b.univ-x.dz/p2" ≠ ([] : Str)
     ∧ str "2024-02-01T00:00:00" ≠ ([] : Str) ∧ str "2024-01-01T00:00:00" ≠ ([] : Str)
     ∧ strLt (str "2024-01-01T00:00:00") (str "2024-02-01T00:00:00") = true)
    ∧ clean_and_dedupe_emails
        [⟨str "K.Said@univ-x.dz", str "univ-x.dz", str "https://a.univ-x.dz/p1",
            str "2024-02-01T00:00:00"⟩,
         ⟨str "k.said@univ-x.dz", str "univ-x.dz", str "https://b.univ-x.dz/p2",
            str "2024-01-01T00:00:00"⟩]
      = [⟨str "k.said@univ-x.dz", str "univ-x.dz", str "2024-01-01T00:00:00",
          str "https://a.univ-x.dz/p1" ++ ';' :: str "https://b.univ-x.dz/p2",
          str "false", str "unknown", []⟩] :=
  ⟨⟨by decide, by decide, by decide, by decide, by decide, by decide, by decide, by decide⟩,
    (C4_dedup_merge (str "https://a.univ-x.dz/p1") (str "https://b.univ-x.dz/p2")
      (str "2024-02-01T00:00:00") (str "2024-01-01T00:00:00")
      (by decide) (by decide) (by decide) (by decide) (by decide)
      (by decide) (by decide) (by decide)).1⟩

/-! ## Link prioritization in the crawl loop (scraper.py lines 1161-1246)

`scrape_domain` re-classifies every link discovered by a batch before
enqueueing: contact, then pagination (inserted at the FRONT of the priority
list), teacher-name, faculty, subdomain, priority-keyword, regular; the queue
is a FIFO deque consumed with `popleft`, so the concatenated order below is
the dequeue order. -/

/-- `get_base_domain` inside `is_same_base_domain` (scraper.py lines 649-658). -/
def get_base_domain (netloc : Str) : Str :=
  if netloc = [] then []
  else
    let parts := splitOnChar '.' netloc
    if 2 ≤ parts.length ∧ parts.getLastD [] = str "dz" then
      match parts.reverse with
      | tld :: sld :: _ => sld ++ '.' :: tld
      | _ => netloc
    else netloc

/-- `is_same_base_domain` (scraper.py lines 642-674). -/
def is_same_base_domain (url1 url2 : Str) : Bool :=
  let p1 := urlparse url1
  let p2 := urlparse url2
  let b1 := get_base_domain p1.netloc
  let b2 := get_base_domain p2.netloc
  if b1 = [] ∨ b2 = [] then false
  else
    (b1 == b2) &&
    (p1.scheme == p2.scheme ||
      ((p1.scheme == str "http" || p1.scheme == str "https" || p1.scheme == ([] : Str)) &&
       (p2.scheme == str "http" || p2.scheme == str "https" || p2.scheme == ([] : Str))))

/-- The `priority_keywords` list of the enqueue step (scraper.py line 1197). -/
def scrapePriorityKeywords : List Str :=
  [str "staff", str "websites", str "contact", str "personnel",
   str "enseignants", str "professeurs", str "annuaire", str "directory"]

/-- The `faculty_keywords` list of the enqueue step (scraper.py lines 1170-1179). -/
def scrapeFacultyKeywords : List Str :=
  [str "faculte", str "faculty", str "facultes", str "faculties",
   str "departement", str "department", str "departements", str "departments",
   str "filiere", str "specialite", str "formation", str "domaine",
   str "section", str "option", str "mathematiques", str "informatique",
   str "physique", str "chimie", str "biologie", str "electronique",
   str "mecanique", str "genie", str "economie", str "droit",
   str "lettres", str "philosophie", str "sociologie", str "psychologie",
   str "medecine", str "pharmacie", str "sciences", str "islamiques", str "fsi"]

/-- `is_contact` (scraper.py line 1203). -/
def linkIsContact (link : Str) : Bool :=
  containsSubstr (str "contact") (lowerAscii link)
  || (str "/contact").isSuffixOf (urlparse link).path

/-- `is_pagination` (scraper.py lines 1216-1220). -/
def linkIsPagination (link : Str) : Bool :=
  let u := lowerAscii link
  (containsSubstr (str "websites") u &&
    (containsSubstr (str "page=") u || containsSubstr (str "&page=") u))
  || (containsSubstr (str "page=") u || containsSubstr (str "&page=") u
      || containsSubstr (str "?page=") u)
  || (containsSubstr (str "p=") u || containsSubstr (str "&p=") u
      || containsSubstr (str "?p=") u)

/-- `is_teacher_name` (scraper.py lines 1206-1213). -/
def linkIsTeacherName (link : Str) : Bool :=
  let u := lowerAscii link
  let parts := (splitOnChar '/' (urlparse link).path).filter (fun p => p ≠ [])
  decide (1 ≤ parts.length) &&
  (match parts.getLast? with
   | none => false
   | some lastSeg =>
     containsChar '-' lastSeg &&
     !([str "websites", str "contact", str "page", str "admin", str "login"].any
        (fun kw => containsSubstr kw u)) &&
     decide (1 ≤ lastSeg.count '-') &&
     decide (2 ≤ (splitOnChar '-' lastSeg).length))

/-- `is_faculty` (scraper.py line 1223). -/
def linkIsFaculty (link : Str) : Bool :=
  scrapeFacultyKeywords.any (fun kw => containsSubstr kw (lowerAscii link))

/-- `is_priority` (scraper.py line 1200). -/
def linkIsPriority (link : Str) : Bool :=
  scrapePriorityKeywords.any (fun kw => containsSubstr kw (lowerAscii link))

/-- `is_subdomain` (scraper.py lines 1191-1194). -/
def linkIsSubdomain (seed link : Str) : Bool :=
  !((urlparse link).netloc == (urlparse seed).netloc) && is_same_base_domain seed link

/-- The six bucket lists of the enqueue step plus the `seen_in_queue` set. -/
structure BatchBuckets where
  contact : List Str
  teacher : List Str
  faculty : List Str
  subdomain : List Str
  priority : List Str
  regular : List Str
  seen : List Str

/-- One iteration of `for link in batch_new_links` (scraper.py lines
1181-1241): normalize, skip if already seen or visited, classify into the
first matching bucket (pagination inserted at the front of the priority
list), record as seen. -/
def processBatchLink (seed : Str) (visited : List Str) (st : BatchBuckets)
    (link : Str) : BatchBuckets :=
  let normalized := normalize_url link
  if normalized ∈ st.seen then st
  else if normalized ∈ visited then st
  else
    let st2 :=
      if linkIsContact normalized then { st with contact := st.contact ++ [normalized] }
      else if linkIsPagination normalized then { st with priority := normalized :: st.priority }
      else if linkIsTeacherName normalized then { st with teacher := st.teacher ++ [normalized] }
      else if linkIsFaculty normalized then { st with faculty := st.faculty ++ [normalized] }
      else if linkIsSubdomain seed normalized then { st with subdomain := st.subdomain ++ [normalized] }
      else if linkIsPriority normalized then { st with priority := st.priority ++ [normalized] }
      else { st with regular := st.regular ++ [normalized] }
    { st2 with seen := st2.seen ++ [normalized] }

/-- The enqueue step of `scrape_domain` (scraper.py line 1245): classify the
batch links then append, in priority order and capped at 500, to the FIFO
queue; the returned list is the relative dequeue order of these links. -/
def enqueueBatchLinks (seed : Str) (visited seen0 : List Str) (batch : List Str) :
    List Str :=
  let st := batch.foldl (processBatchLink seed visited) ⟨[], [], [], [], [], [], seen0⟩
  (st.contact ++ st.priority ++ st.teacher ++ st.faculty ++ st.subdomain ++ st.regular).take 500

/-- C6: a pagination-style link and a generic (unclassified) link discovered
on the same page and both accepted into the frontier are enqueued with the
pagination link strictly first — in either discovery order — because
pagination links are inserted at the front of the priority tier, generic
links go to the regular tier, and the deque is consumed front-first. -/
theorem C6_pagination_before_generic (seed : Str) (visited seen0 : List Str)
    (l1 l2 : Str) (batch : List Str)
    (horder : batch = [l1, l2] ∨ batch = [l2, l1])
    (hn1 : normalize_url l1 = l1) (hn2 : normalize_url l2 = l2)
    (hne : l1 ≠ l2)
    (hs1 : l1 ∉ seen0) (hs2 : l2 ∉ seen0)
    (hv1 : l1 ∉ visited) (hv2 : l2 ∉ visited)
    (hc1 : linkIsContact l1 = false) (hp1 : linkIsPagination l1 = true)
    (hc2 : linkIsContact l2 = false) (hp2 : linkIsPagination l2 = false)
    (ht2 : linkIsTeacherName l2 = false) (hf2 : linkIsFaculty l2 = false)
    (hsub2 : linkIsSubdomain seed l2 = false) (hpr2 : linkIsPriority l2 = false) :
    enqueueBatchLinks seed visited seen0 batch = [l1, l2] := by
  have hne' : ¬ l2 = l1 := fun h => hne h.symm
  rcases horder with rfl | rfl
  · simp [enqueueBatchLinks, processBatchLink, hn1, hn2, hs1, hs2, hv1, hv2,
      hc1, hp1, hc2, hp2, ht2, hf2, hsub2, hpr2, hne, hne']
  · simp [enqueueBatchLinks, processBatchLink, hn1, hn2, hs1, hs2, hv1, hv2,
      hc1, hp1, hc2, hp2, ht2, hf2, hsub2, hpr2, hne, hne']

/-- Witness for C6: the pagination link `/websites?page=2` is dequeued before
the generic link `/about` discovered on the same page of seed
`https://univ-x.dz`. -/
theorem C6_witness :
    ((str "https://univ-x.dz/websites?page=2" : Str) ≠ str "https://univ-x.dz/about"
     ∧ normalize_url (str "https://univ-x.dz/websites?page=2")
         = str "https://univ-x.dz/websites?page=2"
     ∧ normalize_url (str "https://univ-x.dz/about") = str "https://univ-x.dz/about"
     ∧ linkIsContact (str "https://univ-x.dz/websites?page=2") = false
     ∧ linkIsPagination (str "https://univ-x.dz/websites?page=2") = true
     ∧ linkIsContact (str "https://univ-x.dz/about") = false
     ∧ linkIsPagination (str "https://univ-x.dz/about") = false
     ∧ linkIsTeacherName (str "https://univ-x.dz/about") = false
     ∧ linkIsFaculty (str "https://univ-x.dz/about") = false
     ∧ linkIsSubdomain (str "https://univ-x.dz") (str "https://univ-x.dz/about") = false
     ∧ linkIsPriority (str "https://univ-x.dz/about") = false)
    ∧ enqueueBatchLinks (str "https://univ-x.dz") [] []
        [str "https://univ-x.dz/websites?page=2", str "https://univ-x.dz/about"]
      = [str "https://univ-x.dz/websites?page=2", str "https://univ-x.dz/about"] :=
  ⟨⟨by decide, by decide, by decide, by decide, by decide, by decide, by decide,
    by decide, by decide, by decide, by decide⟩,
    C6_pagination_before_generic (str "https://univ-x.dz") [] []
      (str "https://univ-x.dz/websites?page=2") (str "https://univ-x.dz/about")
      [str "https://univ-x.dz/websites?page=2", str "https://univ-x.dz/about"]
      (Or.inl rfl) (by decide) (by decide) (by decide)
      (by simp) (by simp) (by simp) (by simp)
      (by decide) (by decide) (by decide) (by decide) (by decide) (by decide)
      (by decide) (by decide)⟩
